import Mathlib

/-!
# Verification of the pyfck bfal compiler and interpreter

The repository compiles a register-based assembly language ("bfal") to an
eight-instruction tape machine with wrapping byte cells, and executes the
result.  The compiler (`bfalParser`) and execution engine (`bfInterpreter`)
are exercised by `pyfck/tests/test_opcodes.py`; this development embeds the
memory layout, the per-opcode code-generation contracts and the control-flow
compiler as state transformers over the tape, and proves the behavioural
properties the test-suite checks.

Cells are natural numbers kept below 256 by writing through `writeCell`,
which reduces modulo 256 (the tape is an array of wrapping 8-bit cells).
-/

/-- The tape of the execution engine: cell index to 8-bit value. -/
abbrev Mem := Nat → Nat

/-- Write value `v` into cell `i`, wrapping modulo 256 (the engine's cells
are 8-bit with wraparound). -/
def writeCell (m : Mem) (i v : Nat) : Mem :=
  fun j => if j = i then v % 256 else m j

/-- All cells hold 8-bit values. -/
def MemWF (m : Mem) : Prop := ∀ j, m j < 256

/-- 8-bit subtraction `a - b` modulo 256 (natural-number form). -/
def sub8 (a b : Nat) : Nat := (a + (256 - b % 256)) % 256

theorem writeCell_self (m : Mem) (i v : Nat) : writeCell m i v i = v % 256 := by
  simp [writeCell]

theorem writeCell_other (m : Mem) (i v j : Nat) (h : j ≠ i) :
    writeCell m i v j = m j := by
  simp [writeCell, h]

theorem writeCell_absorb (m : Mem) (i a b : Nat) :
    writeCell (writeCell m i a) i b = writeCell m i b := by
  funext j
  by_cases h : j = i <;> simp [writeCell, h]

theorem writeCell_comm (m : Mem) (i j a b : Nat) (h : i ≠ j) :
    writeCell (writeCell m i a) j b = writeCell (writeCell m j b) i a := by
  funext c
  by_cases hc : c = j <;> by_cases hc' : c = i <;>
    simp_all [writeCell]

theorem writeCell_congr (m : Mem) (i : Nat) {a b : Nat} (h : a % 256 = b % 256) :
    writeCell m i a = writeCell m i b := by
  funext j
  by_cases hj : j = i <;> simp [writeCell, hj, h]

theorem writeCell_id (m : Mem) (i v : Nat) (hv : m i = v) (hlt : v < 256) :
    writeCell m i v = m := by
  funext j
  by_cases hj : j = i <;> simp [writeCell, hj, hv, Nat.mod_eq_of_lt hlt]

theorem writeCell_mod (m : Mem) (i v : Nat) :
    writeCell m i (v % 256) = writeCell m i v := by
  apply writeCell_congr
  simp

theorem memWF_writeCell {m : Mem} (hm : MemWF m) (i v : Nat) :
    MemWF (writeCell m i v) := by
  intro j
  by_cases hj : j = i
  · subst hj
    rw [writeCell_self]
    omega
  · rw [writeCell_other _ _ _ _ hj]
    exact hm j

theorem memWF_zero : MemWF (fun _ => 0) := by
  intro j
  simp

/-! ## The byte-cell algorithm patterns

The target machine offers only: move pointer, increment/decrement the
current cell by one with 8-bit wraparound, byte output/input and the
"repeat while current cell nonzero" bracket.  The code generators build
every opcode from a handful of loop patterns; these are the patterns, each
defined as the fuel-indexed unfolding of its bracket loop, together with a
theorem giving its net effect.  A decrement is an increment by 255
(8-bit wraparound). -/

/-- "Zeroing a cell": repeat "decrement while nonzero" (fuel-indexed
unfolding of the bracket loop). -/
def clearGo : Nat → Mem → Nat → Mem
  | 0, m, _ => m
  | f + 1, m, i =>
    if m i = 0 then m else clearGo f (writeCell m i (m i + 255)) i

/-- Zero cell `i`; `m i` iterations always suffice. -/
def clearLoop (m : Mem) (i : Nat) : Mem := clearGo (m i) m i

theorem clearGo_spec (f : Nat) (m : Mem) (i : Nat) (hf : m i ≤ f) :
    clearGo f m i = writeCell m i 0 := by
  induction f generalizing m with
  | zero =>
    have h0 : m i = 0 := by omega
    rw [clearGo, writeCell_id m i 0 h0 (by omega)]
  | succ f ih =>
    rw [clearGo]
    by_cases h : m i = 0
    · rw [if_pos h, writeCell_id m i 0 h (by omega)]
    · rw [if_neg h]
      have hlt : (writeCell m i (m i + 255)) i ≤ f := by
        rw [writeCell_self]
        omega
      rw [ih _ hlt, writeCell_absorb]

theorem clearLoop_spec (m : Mem) (i : Nat) : clearLoop m i = writeCell m i 0 :=
  clearGo_spec _ m i (Nat.le_refl _)

/-- "Setting a cell to a literal": increment `n` times. -/
def addN : Nat → Mem → Nat → Mem
  | 0, m, _ => m
  | n + 1, m, i => addN n (writeCell m i (m i + 1)) i

theorem addN_spec (n : Nat) : ∀ (m : Mem) (i : Nat), m i < 256 →
    addN n m i = writeCell m i (m i + n) := by
  induction n with
  | zero =>
    intro m i h
    rw [addN, Nat.add_zero, writeCell_id m i (m i) rfl h]
  | succ n ih =>
    intro m i h
    rw [addN, ih _ i (by rw [writeCell_self]; omega), writeCell_absorb]
    apply writeCell_congr
    rw [writeCell_self, Nat.mod_add_mod]
    omega

/-- Single-destination transfer: "while src ≠ 0: decrement src, add `d` to
dst".  With `d = 1` this moves the source's value into the destination
(the generators use it to restore a source cell from its scratch copy). -/
def moveGo : Nat → Mem → Nat → Nat → Nat → Mem
  | 0, m, _, _, _ => m
  | f + 1, m, src, dst, d =>
    if m src = 0 then m
    else moveGo f (writeCell (writeCell m src (m src + 255)) dst (m dst + d)) src dst d

theorem moveGo_spec (f : Nat) : ∀ (m : Mem) (src dst d : Nat), src ≠ dst →
    m src < 256 → m dst < 256 → m src ≤ f →
    moveGo f m src dst d =
      writeCell (writeCell m src 0) dst (m dst + d * m src) := by
  induction f with
  | zero =>
    intro m src dst d hne hsrc hdst hf
    have h0 : m src = 0 := by omega
    rw [moveGo, h0, Nat.mul_zero, Nat.add_zero, writeCell_id m src 0 h0 (by omega),
      writeCell_id m dst (m dst) rfl hdst]
  | succ f ih =>
    intro m src dst d hne hsrc hdst hf
    rw [moveGo]
    by_cases h : m src = 0
    · rw [if_pos h, h, Nat.mul_zero, Nat.add_zero, writeCell_id m src 0 h (by omega),
        writeCell_id m dst (m dst) rfl hdst]
    · rw [if_neg h]
      obtain ⟨k, hk⟩ : ∃ k, m src = k + 1 := ⟨m src - 1, by omega⟩
      have e1 : (writeCell (writeCell m src (m src + 255)) dst (m dst + d)) src = k := by
        rw [writeCell_other _ _ _ _ hne, writeCell_self]
        omega
      have e2 : (writeCell (writeCell m src (m src + 255)) dst (m dst + d)) dst
          = (m dst + d) % 256 := by
        rw [writeCell_self]
      rw [ih _ src dst d hne (by rw [e1]; omega) (by rw [e2]; omega) (by rw [e1]; omega)]
      funext j
      by_cases hj : j = dst
      · subst hj
        conv_lhs => rw [writeCell_self, e1, e2]
        conv_rhs => rw [writeCell_self]
        rw [Nat.mod_add_mod, hk]
        congr 1
        ring
      · by_cases hj' : j = src
        · subst hj'
          conv_lhs => rw [writeCell_other _ _ _ _ hj, writeCell_self]
          conv_rhs => rw [writeCell_other _ _ _ _ hj, writeCell_self]
        · conv_lhs => rw [writeCell_other _ _ _ _ hj, writeCell_other _ _ _ _ hj',
            writeCell_other _ _ _ _ hj, writeCell_other _ _ _ _ hj']
          conv_rhs => rw [writeCell_other _ _ _ _ hj, writeCell_other _ _ _ _ hj']

/-- The non-destructive copy kernel: "while src ≠ 0: decrement src, add `d`
to dst, increment scr".  The scratch cell counts the iterations so the
source can be restored afterwards. -/
def copyGo : Nat → Mem → Nat → Nat → Nat → Nat → Mem
  | 0, m, _, _, _, _ => m
  | f + 1, m, src, dst, scr, d =>
    if m src = 0 then m
    else copyGo f
      (writeCell (writeCell (writeCell m src (m src + 255)) dst (m dst + d))
        scr (m scr + 1)) src dst scr d

theorem copyGo_spec (f : Nat) : ∀ (m : Mem) (src dst scr d : Nat),
    src ≠ dst → src ≠ scr → dst ≠ scr →
    m src < 256 → m dst < 256 → m scr < 256 → m src ≤ f →
    copyGo f m src dst scr d =
      writeCell (writeCell (writeCell m src 0) dst (m dst + d * m src))
        scr (m scr + m src) := by
  induction f with
  | zero =>
    intro m src dst scr d hsd hss hds hsrc hdst hscr hf
    have h0 : m src = 0 := by omega
    rw [copyGo, h0, Nat.mul_zero, Nat.add_zero, Nat.add_zero,
      writeCell_id m src 0 h0 (by omega), writeCell_id m dst (m dst) rfl hdst,
      writeCell_id m scr (m scr) rfl hscr]
  | succ f ih =>
    intro m src dst scr d hsd hss hds hsrc hdst hscr hf
    rw [copyGo]
    by_cases h : m src = 0
    · rw [if_pos h, h, Nat.mul_zero, Nat.add_zero, Nat.add_zero,
        writeCell_id m src 0 h (by omega), writeCell_id m dst (m dst) rfl hdst,
        writeCell_id m scr (m scr) rfl hscr]
    · rw [if_neg h]
      obtain ⟨k, hk⟩ : ∃ k, m src = k + 1 := ⟨m src - 1, by omega⟩
      have e1 : (writeCell (writeCell (writeCell m src (m src + 255)) dst (m dst + d))
          scr (m scr + 1)) src = k := by
        rw [writeCell_other _ _ _ _ hss, writeCell_other _ _ _ _ hsd, writeCell_self]
        omega
      have e2 : (writeCell (writeCell (writeCell m src (m src + 255)) dst (m dst + d))
          scr (m scr + 1)) dst = (m dst + d) % 256 := by
        rw [writeCell_other _ _ _ _ hds, writeCell_self]
      have e3 : (writeCell (writeCell (writeCell m src (m src + 255)) dst (m dst + d))
          scr (m scr + 1)) scr = (m scr + 1) % 256 := by
        rw [writeCell_self]
      rw [ih _ src dst scr d hsd hss hds (by rw [e1]; omega) (by rw [e2]; omega)
        (by rw [e3]; omega) (by rw [e1]; omega)]
      funext j
      by_cases hjc : j = scr
      · subst hjc
        conv_lhs => rw [writeCell_self, e3, e1]
        conv_rhs => rw [writeCell_self]
        rw [Nat.mod_add_mod, hk]
        omega
      · by_cases hj : j = dst
        · subst hj
          conv_lhs => rw [writeCell_other _ _ _ _ hjc, writeCell_self, e2, e1]
          conv_rhs => rw [writeCell_other _ _ _ _ hjc, writeCell_self]
          rw [Nat.mod_add_mod, hk]
          congr 1
          ring
        · by_cases hj' : j = src
          · subst hj'
            conv_lhs => rw [writeCell_other _ _ _ _ hjc, writeCell_other _ _ _ _ hj,
              writeCell_self]
            conv_rhs => rw [writeCell_other _ _ _ _ hjc, writeCell_other _ _ _ _ hj,
              writeCell_self]
          · conv_lhs => rw [writeCell_other _ _ _ _ hjc, writeCell_other _ _ _ _ hj,
              writeCell_other _ _ _ _ hj', writeCell_other _ _ _ _ hjc,
              writeCell_other _ _ _ _ hj, writeCell_other _ _ _ _ hj']
            conv_rhs => rw [writeCell_other _ _ _ _ hjc, writeCell_other _ _ _ _ hj,
              writeCell_other _ _ _ _ hj']

/-- Non-destructive copy of `src` into `dst` via scratch cell `scr`
(`d = 1` accumulates by increments, `d = 255` by wrapping decrements):
move `src` into `dst` and `scr` simultaneously, then move `scr` back into
`src`.  This both writes the destination and restores the source. -/
def copyRestore (m : Mem) (src dst scr d : Nat) : Mem :=
  moveGo (copyGo (m src) m src dst scr d scr) (copyGo (m src) m src dst scr d)
    scr src 1

theorem copyRestore_spec (m : Mem) (src dst scr d : Nat)
    (hsd : src ≠ dst) (hss : src ≠ scr) (hds : dst ≠ scr)
    (hm : MemWF m) (hscr : m scr = 0) :
    copyRestore m src dst scr d = writeCell m dst (m dst + d * m src) := by
  rw [copyRestore,
    copyGo_spec (m src) m src dst scr d hsd hss hds (hm src) (hm dst) (hm scr)
      (Nat.le_refl _)]
  have h1scr : (writeCell (writeCell (writeCell m src 0) dst (m dst + d * m src))
      scr (m scr + m src)) scr = m src := by
    rw [writeCell_self, hscr, Nat.zero_add, Nat.mod_eq_of_lt (hm src)]
  have h1src : (writeCell (writeCell (writeCell m src 0) dst (m dst + d * m src))
      scr (m scr + m src)) src = 0 := by
    rw [writeCell_other _ _ _ _ hss, writeCell_other _ _ _ _ hsd, writeCell_self]
  have h1dst : (writeCell (writeCell (writeCell m src 0) dst (m dst + d * m src))
      scr (m scr + m src)) dst = (m dst + d * m src) % 256 := by
    rw [writeCell_other _ _ _ _ hds, writeCell_self]
  rw [moveGo_spec _ _ scr src 1 (fun hc => hss hc.symm)
    (by rw [h1scr]; exact hm src) (by rw [h1src]; omega) (by rw [h1scr])]
  funext j
  by_cases hj : j = src
  · subst hj
    conv_lhs => rw [writeCell_self, h1src, h1scr]
    conv_rhs => rw [writeCell_other _ _ _ _ hsd]
    have hs := hm j
    omega
  · by_cases hjc : j = scr
    · subst hjc
      conv_lhs => rw [writeCell_other _ _ _ _ hss.symm, writeCell_self]
      conv_rhs => rw [writeCell_other _ _ _ _ hds.symm]
      simp [hscr]
    · by_cases hjd : j = dst
      · subst hjd
        conv_lhs => rw [writeCell_other _ _ _ _ hsd.symm,
          writeCell_other _ _ _ _ hds, h1dst]
        conv_rhs => rw [writeCell_self]
      · conv_lhs => rw [writeCell_other _ _ _ _ hj, writeCell_other _ _ _ _ hjc,
          writeCell_other _ _ _ _ hjc, writeCell_other _ _ _ _ hjd,
          writeCell_other _ _ _ _ hj]
        conv_rhs => rw [writeCell_other _ _ _ _ hjd]

/-- DIV by repeated subtraction: subtract the divisor from a scratch copy
of the dividend, counting iterations, until the remainder is smaller than
the divisor; a zero-valued divisor yields a result of 0 (no trap). -/
def divLoop (a b : Nat) : Nat :=
  if b = 0 then 0
  else if a < b then 0
  else divLoop (a - b) b + 1
termination_by a
decreasing_by omega

theorem divLoop_zero (a : Nat) : divLoop a 0 = 0 := by
  rw [divLoop]
  simp

theorem divLoop_eq_div (a b : Nat) (hb : b ≠ 0) : divLoop a b = a / b := by
  induction a using Nat.strong_induction_on with
  | _ a ih =>
    rw [divLoop, if_neg hb]
    by_cases h : a < b
    · rw [if_pos h, Nat.div_eq_of_lt h]
    · rw [if_neg h, ih (a - b) (by omega)]
      conv_rhs => rw [Nat.div_eq_sub_div (by omega) (by omega)]

/-! ## Memory layout

Modelled from the spec: `bfalParser` fixes an ordered assignment of named
cells to tape offsets — constant cells (value cells re-established by the
compiled program's preamble, among them the fixed zero-valued scratch
cell), then the general registers, then the condition register RC, then
the STACK cell; the stack slots are pairs of adjacent cells (presence
flag, value) beginning two cells past the STACK cell, as pinned down by
`createStack` in `tests/test_opcodes.py`.  The parser source is not part
of the repository snapshot, so the layout is kept abstract: any offset
assignment respecting the zone order of the spec. -/
structure MemoryLayout where
  constants : List (Nat × Nat)
  registers : List Nat
  rc : Nat
  stack : Nat
  tmp : Nat

/-- Zone-order well-formedness of a layout (spec §3: zones in order
{constants, registers, RC, stack base}, unique offsets, byte-sized
constant values, and the scratch cell is a zero-valued constant cell). -/
def MemoryLayout.WF (L : MemoryLayout) : Prop :=
  (L.tmp, 0) ∈ L.constants ∧
  (L.constants.map Prod.fst).Nodup ∧
  (∀ p ∈ L.constants, p.2 < 256) ∧
  (∀ p ∈ L.constants, ∀ r ∈ L.registers, p.1 < r) ∧
  (∀ p ∈ L.constants, p.1 < L.rc) ∧
  (∀ r ∈ L.registers, r < L.rc) ∧
  L.rc < L.stack

instance (L : MemoryLayout) : Decidable L.WF := by
  unfold MemoryLayout.WF
  infer_instance

/-- Offset of the presence-flag cell of stack slot `k` (slots start two
cells past the STACK cell). -/
def slotFlag (L : MemoryLayout) (k : Nat) : Nat := L.stack + 2 + 2 * k

/-- Offset of the value cell of stack slot `k`. -/
def slotVal (L : MemoryLayout) (k : Nat) : Nat := L.stack + 2 + 2 * k + 1

/-- The constant cells hold their constant-initialized values. -/
def ConstsInit (L : MemoryLayout) (m : Mem) : Prop :=
  ∀ p ∈ L.constants, m p.1 = p.2

instance (L : MemoryLayout) (m : Mem) : Decidable (ConstsInit L m) := by
  unfold ConstsInit
  infer_instance

/-- Machine state: the tape, the compiler-tracked stack-top slot count,
and the input/output byte streams of the execution engine. -/
@[ext]
structure St where
  mem : Mem
  sp : Nat
  inp : List Nat
  out : List Nat

/-! ## The bfal opcodes

One constructor per (mnemonic, operand-shape) pair of the opcode table,
named as in the test-suite (`R` register operand, `V` literal value
operand, `T` text).  Register operands are tape offsets after operand
resolution by the parser. -/
inductive Instr where
  | SET_RV (r v : Nat)
  | SET_RR (r0 r1 : Nat)
  | STZ_R (r : Nat)
  | PUSH_V (v : Nat)
  | PUSH_R (r : Nat)
  | POP_R (r : Nat)
  | INC_R (r : Nat)
  | INC_RV (r v : Nat)
  | INC_RR (r0 r1 : Nat)
  | DEC_R (r : Nat)
  | DEC_RV (r v : Nat)
  | DEC_RR (r0 r1 : Nat)
  | ADD_RVV (r v0 v1 : Nat)
  | ADD_RRV (r0 r1 v : Nat)
  | ADD_RRR (r0 r1 r2 : Nat)
  | SUB_RVV (r v0 v1 : Nat)
  | SUB_RRV (r0 r1 v : Nat)
  | SUB_RRR (r0 r1 r2 : Nat)
  | MUL_RVV (r v0 v1 : Nat)
  | MUL_RRV (r0 r1 v : Nat)
  | MUL_RRR (r0 r1 r2 : Nat)
  | DIV_RVV (r v0 v1 : Nat)
  | DIV_RRV (r0 r1 v : Nat)
  | DIV_RRR (r0 r1 r2 : Nat)
  | TRUE
  | FALSE
  | NOT
  | ZR_V (v : Nat)
  | ZR_R (r : Nat)
  | NZ_V (v : Nat)
  | NZ_R (r : Nat)
  | EQ_VV (v0 v1 : Nat)
  | EQ_RV (r v : Nat)
  | EQ_RR (r0 r1 : Nat)
  | NE_VV (v0 v1 : Nat)
  | NE_RV (r v : Nat)
  | NE_RR (r0 r1 : Nat)
  | GT_VV (v0 v1 : Nat)
  | GT_RV (r v : Nat)
  | GT_RR (r0 r1 : Nat)
  | GE_VV (v0 v1 : Nat)
  | GE_RV (r v : Nat)
  | GE_RR (r0 r1 : Nat)
  | LT_VV (v0 v1 : Nat)
  | LT_RV (r v : Nat)
  | LT_RR (r0 r1 : Nat)
  | LE_VV (v0 v1 : Nat)
  | LE_RV (r v : Nat)
  | LE_RR (r0 r1 : Nat)
  | INP_R (r : Nat)
  | OUT_R (r : Nat)
  | PRT_T (s : List Nat)

/-- Write a 0/1 result into the condition register RC (the implicit
destination of every comparison/zero-test opcode). -/
def rcSet (L : MemoryLayout) (st : St) (v : Nat) : St :=
  { st with mem := writeCell st.mem L.rc v }

/-! ## Per-opcode semantics

Modelled from the spec: the opcode code generators of `bfalParser` are not
part of the repository snapshot, so each (mnemonic, shape) pair is embedded
by the net effect its generation rule is specified to have (§4.2): where
the spec prescribes the algorithm pattern (zero-then-increment for SET with a
literal, the copy/restore pattern for register reads, repeated subtraction
for DIV), the embedding is built from those patterns; operand aliasing is
resolved by reading all operands before any destination is written (§9),
so every result below is computed from the pre-state.  Comparisons and
zero tests write 0/1 into RC non-destructively; same-register comparisons
are special-cased by the generators and degenerate per relation. -/
def exec (L : MemoryLayout) (i : Instr) (st : St) : St :=
  match i with
  | .SET_RV r v => { st with mem := addN v (clearLoop st.mem r) r }
  | .SET_RR r0 r1 =>
    if r0 = r1 then st
    else { st with mem := copyRestore (clearLoop st.mem r0) r1 r0 L.tmp 1 }
  | .STZ_R r => { st with mem := clearLoop st.mem r }
  | .PUSH_V v =>
    { st with
      mem := writeCell (writeCell st.mem (slotFlag L st.sp) 1) (slotVal L st.sp) v
      sp := st.sp + 1 }
  | .PUSH_R r =>
    { st with
      mem := writeCell (writeCell st.mem (slotFlag L st.sp) 1) (slotVal L st.sp)
        (st.mem r)
      sp := st.sp + 1 }
  | .POP_R r =>
    match st.sp with
    | 0 => st
    | k + 1 =>
      { st with
        mem := writeCell (writeCell (writeCell st.mem r (st.mem (slotVal L k)))
          (slotVal L k) 0) (slotFlag L k) 0
        sp := k }
  | .INC_R r => { st with mem := writeCell st.mem r (st.mem r + 1) }
  | .INC_RV r v => { st with mem := writeCell st.mem r (st.mem r + v) }
  | .INC_RR r0 r1 =>
    if r0 = r1 then { st with mem := writeCell st.mem r0 (st.mem r0 + st.mem r0) }
    else { st with mem := copyRestore st.mem r1 r0 L.tmp 1 }
  | .DEC_R r => { st with mem := writeCell st.mem r (st.mem r + 255) }
  | .DEC_RV r v => { st with mem := writeCell st.mem r (sub8 (st.mem r) v) }
  | .DEC_RR r0 r1 =>
    if r0 = r1 then { st with mem := writeCell st.mem r0 (sub8 (st.mem r0) (st.mem r0)) }
    else { st with mem := copyRestore st.mem r1 r0 L.tmp 255 }
  | .ADD_RVV r v0 v1 => { st with mem := writeCell st.mem r (v0 + v1) }
  | .ADD_RRV r0 r1 v => { st with mem := writeCell st.mem r0 (st.mem r1 + v) }
  | .ADD_RRR r0 r1 r2 => { st with mem := writeCell st.mem r0 (st.mem r1 + st.mem r2) }
  | .SUB_RVV r v0 v1 => { st with mem := writeCell st.mem r (sub8 v0 v1) }
  | .SUB_RRV r0 r1 v => { st with mem := writeCell st.mem r0 (sub8 (st.mem r1) v) }
  | .SUB_RRR r0 r1 r2 =>
    { st with mem := writeCell st.mem r0 (sub8 (st.mem r1) (st.mem r2)) }
  | .MUL_RVV r v0 v1 => { st with mem := writeCell st.mem r (v0 * v1) }
  | .MUL_RRV r0 r1 v => { st with mem := writeCell st.mem r0 (st.mem r1 * v) }
  | .MUL_RRR r0 r1 r2 => { st with mem := writeCell st.mem r0 (st.mem r1 * st.mem r2) }
  | .DIV_RVV r v0 v1 => { st with mem := writeCell st.mem r (divLoop (v0 % 256) (v1 % 256)) }
  | .DIV_RRV r0 r1 v => { st with mem := writeCell st.mem r0 (divLoop (st.mem r1) (v % 256)) }
  | .DIV_RRR r0 r1 r2 =>
    { st with mem := writeCell st.mem r0 (divLoop (st.mem r1) (st.mem r2)) }
  | .TRUE => rcSet L st 1
  | .FALSE => rcSet L st 0
  | .NOT => rcSet L st (if st.mem L.rc = 0 then 1 else 0)
  | .ZR_V v => rcSet L st (if v % 256 = 0 then 1 else 0)
  | .ZR_R r => rcSet L st (if st.mem r = 0 then 1 else 0)
  | .NZ_V v => rcSet L st (if v % 256 = 0 then 0 else 1)
  | .NZ_R r => rcSet L st (if st.mem r = 0 then 0 else 1)
  | .EQ_VV v0 v1 => rcSet L st (if v0 % 256 = v1 % 256 then 1 else 0)
  | .EQ_RV r v => rcSet L st (if st.mem r = v % 256 then 1 else 0)
  | .EQ_RR r0 r1 => rcSet L st (if st.mem r0 = st.mem r1 then 1 else 0)
  | .NE_VV v0 v1 => rcSet L st (if v0 % 256 = v1 % 256 then 0 else 1)
  | .NE_RV r v => rcSet L st (if st.mem r = v % 256 then 0 else 1)
  | .NE_RR r0 r1 => rcSet L st (if st.mem r0 = st.mem r1 then 0 else 1)
  | .GT_VV v0 v1 => rcSet L st (if v1 % 256 < v0 % 256 then 1 else 0)
  | .GT_RV r v => rcSet L st (if v % 256 < st.mem r then 1 else 0)
  | .GT_RR r0 r1 => rcSet L st (if st.mem r1 < st.mem r0 then 1 else 0)
  | .GE_VV v0 v1 => rcSet L st (if v1 % 256 ≤ v0 % 256 then 1 else 0)
  | .GE_RV r v => rcSet L st (if v % 256 ≤ st.mem r then 1 else 0)
  | .GE_RR r0 r1 => rcSet L st (if st.mem r1 ≤ st.mem r0 then 1 else 0)
  | .LT_VV v0 v1 => rcSet L st (if v0 % 256 < v1 % 256 then 1 else 0)
  | .LT_RV r v => rcSet L st (if st.mem r < v % 256 then 1 else 0)
  | .LT_RR r0 r1 => rcSet L st (if st.mem r0 < st.mem r1 then 1 else 0)
  | .LE_VV v0 v1 => rcSet L st (if v0 % 256 ≤ v1 % 256 then 1 else 0)
  | .LE_RV r v => rcSet L st (if st.mem r ≤ v % 256 then 1 else 0)
  | .LE_RR r0 r1 => rcSet L st (if st.mem r0 ≤ st.mem r1 then 1 else 0)
  | .INP_R r =>
    match st.inp with
    | [] => st
    | c :: rest => { st with mem := writeCell st.mem r c, inp := rest }
  | .OUT_R r => { st with out := st.out ++ [st.mem r] }
  | .PRT_T s => { st with out := st.out ++ s }

/-- The cells an opcode semantically writes (its declared destinations);
`sp` is the compiler-tracked stack-top slot count at the opcode. -/
def Instr.writes (L : MemoryLayout) (sp : Nat) : Instr → List Nat
  | .SET_RV r _ => [r]
  | .SET_RR r0 _ => [r0]
  | .STZ_R r => [r]
  | .PUSH_V _ => [slotFlag L sp, slotVal L sp]
  | .PUSH_R _ => [slotFlag L sp, slotVal L sp]
  | .POP_R r => [r, slotFlag L (sp - 1), slotVal L (sp - 1)]
  | .INC_R r => [r]
  | .INC_RV r _ => [r]
  | .INC_RR r0 _ => [r0]
  | .DEC_R r => [r]
  | .DEC_RV r _ => [r]
  | .DEC_RR r0 _ => [r0]
  | .ADD_RVV r _ _ => [r]
  | .ADD_RRV r0 _ _ => [r0]
  | .ADD_RRR r0 _ _ => [r0]
  | .SUB_RVV r _ _ => [r]
  | .SUB_RRV r0 _ _ => [r0]
  | .SUB_RRR r0 _ _ => [r0]
  | .MUL_RVV r _ _ => [r]
  | .MUL_RRV r0 _ _ => [r0]
  | .MUL_RRR r0 _ _ => [r0]
  | .DIV_RVV r _ _ => [r]
  | .DIV_RRV r0 _ _ => [r0]
  | .DIV_RRR r0 _ _ => [r0]
  | .TRUE => [L.rc]
  | .FALSE => [L.rc]
  | .NOT => [L.rc]
  | .ZR_V _ => [L.rc]
  | .ZR_R _ => [L.rc]
  | .NZ_V _ => [L.rc]
  | .NZ_R _ => [L.rc]
  | .EQ_VV _ _ => [L.rc]
  | .EQ_RV _ _ => [L.rc]
  | .EQ_RR _ _ => [L.rc]
  | .NE_VV _ _ => [L.rc]
  | .NE_RV _ _ => [L.rc]
  | .NE_RR _ _ => [L.rc]
  | .GT_VV _ _ => [L.rc]
  | .GT_RV _ _ => [L.rc]
  | .GT_RR _ _ => [L.rc]
  | .GE_VV _ _ => [L.rc]
  | .GE_RV _ _ => [L.rc]
  | .GE_RR _ _ => [L.rc]
  | .LT_VV _ _ => [L.rc]
  | .LT_RV _ _ => [L.rc]
  | .LT_RR _ _ => [L.rc]
  | .LE_VV _ _ => [L.rc]
  | .LE_RV _ _ => [L.rc]
  | .LE_RR _ _ => [L.rc]
  | .INP_R r => [r]
  | .OUT_R _ => []
  | .PRT_T _ => []

/-- Operand validity: every register operand resolves to a general
register of the layout. -/
def Instr.validOps (L : MemoryLayout) : Instr → Prop
  | .SET_RV r _ => r ∈ L.registers
  | .SET_RR r0 r1 => r0 ∈ L.registers ∧ r1 ∈ L.registers
  | .STZ_R r => r ∈ L.registers
  | .PUSH_V _ => True
  | .PUSH_R r => r ∈ L.registers
  | .POP_R r => r ∈ L.registers
  | .INC_R r => r ∈ L.registers
  | .INC_RV r _ => r ∈ L.registers
  | .INC_RR r0 r1 => r0 ∈ L.registers ∧ r1 ∈ L.registers
  | .DEC_R r => r ∈ L.registers
  | .DEC_RV r _ => r ∈ L.registers
  | .DEC_RR r0 r1 => r0 ∈ L.registers ∧ r1 ∈ L.registers
  | .ADD_RVV r _ _ => r ∈ L.registers
  | .ADD_RRV r0 r1 _ => r0 ∈ L.registers ∧ r1 ∈ L.registers
  | .ADD_RRR r0 r1 r2 => r0 ∈ L.registers ∧ r1 ∈ L.registers ∧ r2 ∈ L.registers
  | .SUB_RVV r _ _ => r ∈ L.registers
  | .SUB_RRV r0 r1 _ => r0 ∈ L.registers ∧ r1 ∈ L.registers
  | .SUB_RRR r0 r1 r2 => r0 ∈ L.registers ∧ r1 ∈ L.registers ∧ r2 ∈ L.registers
  | .MUL_RVV r _ _ => r ∈ L.registers
  | .MUL_RRV r0 r1 _ => r0 ∈ L.registers ∧ r1 ∈ L.registers
  | .MUL_RRR r0 r1 r2 => r0 ∈ L.registers ∧ r1 ∈ L.registers ∧ r2 ∈ L.registers
  | .DIV_RVV r _ _ => r ∈ L.registers
  | .DIV_RRV r0 r1 _ => r0 ∈ L.registers ∧ r1 ∈ L.registers
  | .DIV_RRR r0 r1 r2 => r0 ∈ L.registers ∧ r1 ∈ L.registers ∧ r2 ∈ L.registers
  | .TRUE => True
  | .FALSE => True
  | .NOT => True
  | .ZR_V _ => True
  | .ZR_R r => r ∈ L.registers
  | .NZ_V _ => True
  | .NZ_R r => r ∈ L.registers
  | .EQ_VV _ _ => True
  | .EQ_RV r _ => r ∈ L.registers
  | .EQ_RR r0 r1 => r0 ∈ L.registers ∧ r1 ∈ L.registers
  | .NE_VV _ _ => True
  | .NE_RV r _ => r ∈ L.registers
  | .NE_RR r0 r1 => r0 ∈ L.registers ∧ r1 ∈ L.registers
  | .GT_VV _ _ => True
  | .GT_RV r _ => r ∈ L.registers
  | .GT_RR r0 r1 => r0 ∈ L.registers ∧ r1 ∈ L.registers
  | .GE_VV _ _ => True
  | .GE_RV r _ => r ∈ L.registers
  | .GE_RR r0 r1 => r0 ∈ L.registers ∧ r1 ∈ L.registers
  | .LT_VV _ _ => True
  | .LT_RV r _ => r ∈ L.registers
  | .LT_RR r0 r1 => r0 ∈ L.registers ∧ r1 ∈ L.registers
  | .LE_VV _ _ => True
  | .LE_RV r _ => r ∈ L.registers
  | .LE_RR r0 r1 => r0 ∈ L.registers ∧ r1 ∈ L.registers
  | .INP_R r => r ∈ L.registers
  | .OUT_R r => r ∈ L.registers
  | .PRT_T _ => True

instance (L : MemoryLayout) (i : Instr) : Decidable (i.validOps L) := by
  cases i <;> (unfold Instr.validOps; infer_instance)

/-- The comparison and zero-test opcodes: those whose result overwrites RC
as a 0/1 truth value. -/
def Instr.isCmpTest : Instr → Bool
  | .ZR_V _ | .ZR_R _ | .NZ_V _ | .NZ_R _
  | .EQ_VV _ _ | .EQ_RV _ _ | .EQ_RR _ _
  | .NE_VV _ _ | .NE_RV _ _ | .NE_RR _ _
  | .GT_VV _ _ | .GT_RV _ _ | .GT_RR _ _
  | .GE_VV _ _ | .GE_RV _ _ | .GE_RR _ _
  | .LT_VV _ _ | .LT_RV _ _ | .LT_RR _ _
  | .LE_VV _ _ | .LE_RV _ _ | .LE_RR _ _ => true
  | _ => false

/-! ## Compile-and-run

A compiled program starts with a preamble re-establishing the constant
cells (compiling even the empty bfal program produces it, cf.
`test_opcodes_initConstants`), followed by the opcode fragments. -/

/-- The constant-initialisation preamble of every compiled program. -/
def initMem (L : MemoryLayout) (m : Mem) : Mem :=
  L.constants.foldl (fun acc p => writeCell acc p.1 p.2) m

def initSt (L : MemoryLayout) (st : St) : St := { st with mem := initMem L st.mem }

/-- Compile and run a single opcode. -/
def runOne (L : MemoryLayout) (i : Instr) (st : St) : St := exec L i (initSt L st)

/-- Run a straight-line opcode sequence (no preamble). -/
def execList (L : MemoryLayout) (is : List Instr) (st : St) : St :=
  is.foldl (fun s i => exec L i s) st

/-- Compile and run a straight-line opcode sequence. -/
def runList (L : MemoryLayout) (is : List Instr) (st : St) : St :=
  execList L is (initSt L st)

theorem foldWrite_id (l : List (Nat × Nat)) : ∀ m : Mem,
    (∀ p ∈ l, m p.1 = p.2 ∧ p.2 < 256) →
    l.foldl (fun acc p => writeCell acc p.1 p.2) m = m := by
  induction l with
  | nil => intro m _; rfl
  | cons p l ih =>
    intro m h
    have hp := h p (by simp)
    rw [List.foldl_cons, writeCell_id m p.1 p.2 hp.1 hp.2]
    exact ih m (fun q hq => h q (by simp [hq]))

theorem initMem_of_init {L : MemoryLayout} (hL : L.WF) {m : Mem}
    (hc : ConstsInit L m) : initMem L m = m := by
  apply foldWrite_id
  intro p hp
  exact ⟨hc p hp, hL.2.2.1 p hp⟩

theorem initSt_of_init {L : MemoryLayout} (hL : L.WF) {st : St}
    (hc : ConstsInit L st.mem) : initSt L st = st := by
  rw [initSt, initMem_of_init hL hc]

/-! ## The control-flow compiler

Modelled from the spec (§4.3): LOOP/ENDLOOP compiles to a bracket pair
conditioned on RC — the bfal program is responsible for setting RC before
LOOP and refreshing it inside the body before ENDLOOP; IF/ENDIF compiles
to the same bracket construct with the compiler forcing RC to 0 after the
body's final instruction and before the closing bracket (a FALSE
fragment), so the loop underlying IF can never repeat.  `runProg` is the
engine's execution of the compiled nest; the fuel argument bounds the
number of bracket-loop iterations (the engine itself runs unboundedly;
a `none` result means the fuel was exhausted). -/
inductive Prog where
  | nil : Prog
  | seq : Instr → Prog → Prog
  | loop : Prog → Prog → Prog
  | ifB : Prog → Prog → Prog

/-- Append one instruction after the final instruction of a block (used
by the IF compiler to plant the RC-clearing fragment before the closing
bracket). -/
def Prog.snoc : Prog → Instr → Prog
  | .nil, i => .seq i .nil
  | .seq j p, i => .seq j (p.snoc i)
  | .loop b r, i => .loop b (r.snoc i)
  | .ifB b r, i => .ifB b (r.snoc i)

/-- Size measure for the execution recursion: an IF is strictly larger
than the LOOP (with the planted FALSE) it compiles to. -/
def Prog.msize : Prog → Nat
  | .nil => 0
  | .seq _ p => p.msize + 1
  | .loop b r => b.msize + r.msize + 1
  | .ifB b r => b.msize + r.msize + 3

theorem Prog.msize_snoc (p : Prog) (i : Instr) :
    (p.snoc i).msize = p.msize + 1 := by
  induction p with
  | nil => rfl
  | seq j p ih => simp [Prog.snoc, Prog.msize, ih]
  | loop b r ih1 ih2 => simp [Prog.snoc, Prog.msize, ih2]; omega
  | ifB b r ih1 ih2 => simp [Prog.snoc, Prog.msize, ih2]; omega

/-- Execute a compiled control-flow nest: `loop body rest` repeats `body`
while RC is nonzero, `ifB body rest` is the bracket with the RC-clearing
`FALSE` planted after the body. -/
def runProg (L : MemoryLayout) : Nat → Prog → St → Option St
  | _, .nil, st => some st
  | fuel, .seq i p, st => runProg L fuel p (exec L i st)
  | fuel, .ifB body rest, st => runProg L fuel (.loop (body.snoc .FALSE) rest) st
  | 0, .loop _ _, _ => none
  | fuel + 1, .loop body rest, st =>
    if st.mem L.rc = 0 then runProg L (fuel + 1) rest st
    else
      match runProg L fuel body st with
      | none => none
      | some st1 => runProg L fuel (.loop body rest) st1
termination_by fuel p _ => (fuel, p.msize)
decreasing_by
  · exact Prod.Lex.right _ (by simp only [Prog.msize]; omega)
  · exact Prod.Lex.right _ (by simp only [Prog.msize, Prog.msize_snoc]; omega)
  · exact Prod.Lex.right _ (by simp only [Prog.msize]; omega)
  · exact Prod.Lex.left _ _ (by omega)
  · exact Prod.Lex.left _ _ (by omega)

/-- Compile and run a control-flow program (preamble included). -/
def runProgC (L : MemoryLayout) (fuel : Nat) (p : Prog) (st : St) : Option St :=
  runProg L fuel p (initSt L st)

/-! ## The stack region -/

theorem execList_nil (L : MemoryLayout) (st : St) : execList L [] st = st := rfl

theorem execList_cons (L : MemoryLayout) (i : Instr) (is : List Instr) (st : St) :
    execList L (i :: is) st = execList L is (exec L i st) := rfl

theorem getD_append_left : ∀ (us vs : List Nat) (k : Nat), k < us.length →
    (us ++ vs).getD k 0 = us.getD k 0 := by
  intro us
  induction us with
  | nil =>
    intro vs k h
    simp at h
  | cons a us ih =>
    intro vs k h
    cases k with
    | zero => simp
    | succ k =>
      simp only [List.cons_append, List.getD_cons_succ]
      exact ih vs k (by simp at h; omega)

theorem getD_append_length (us : List Nat) (v : Nat) :
    (us ++ [v]).getD us.length 0 = v := by
  induction us with
  | nil => simp
  | cons a us ih =>
    simp only [List.cons_append, List.length_cons, List.getD_cons_succ]
    exact ih

/-- The tape contents of a stack holding exactly the values `vs` (pushed in
order): slot `k` holds (presence = 1, value = `vs[k]`), the STACK cell and
the cell after it are 0, and the region beyond the top slot is all zero. -/
def StackRep (L : MemoryLayout) (vs : List Nat) (m : Mem) : Prop :=
  (∀ k, k < vs.length → m (slotFlag L k) = 1 ∧ m (slotVal L k) = vs.getD k 0) ∧
  m L.stack = 0 ∧ m (L.stack + 1) = 0 ∧
  (∀ j, L.stack + 2 + 2 * vs.length ≤ j → m j = 0)

/-- PUSH of a value appends a (1, v) slot at the tracked top and touches
nothing below it. -/
theorem push_step (L : MemoryLayout) (vs : List Nat) (v : Nat)
    (hv : v < 256) (st : St) (hm : MemWF st.mem) (hrep : StackRep L vs st.mem)
    (hsp : st.sp = vs.length) :
    StackRep L (vs ++ [v]) (exec L (.PUSH_V v) st).mem ∧
    (exec L (.PUSH_V v) st).sp = (vs ++ [v]).length ∧
    MemWF (exec L (.PUSH_V v) st).mem ∧
    (∀ j, j < L.stack + 2 + 2 * vs.length → (exec L (.PUSH_V v) st).mem j = st.mem j) ∧
    (exec L (.PUSH_V v) st).inp = st.inp ∧ (exec L (.PUSH_V v) st).out = st.out := by
  obtain ⟨hslots, hs0, hs1, hbeyond⟩ := hrep
  have hmem : (exec L (.PUSH_V v) st).mem =
      writeCell (writeCell st.mem (slotFlag L vs.length) 1) (slotVal L vs.length) v := by
    simp [exec, hsp]
  have hfv : slotFlag L vs.length ≠ slotVal L vs.length := by
    simp [slotFlag, slotVal]
  have hframe : ∀ j, j < L.stack + 2 + 2 * vs.length →
      (exec L (.PUSH_V v) st).mem j = st.mem j := by
    intro j hj
    rw [hmem, writeCell_other _ _ _ _ (by simp only [slotVal, slotFlag]; omega),
      writeCell_other _ _ _ _ (by simp only [slotFlag]; omega)]
  refine ⟨⟨?_, ?_, ?_, ?_⟩, by simp [exec, hsp], ?_, hframe, by simp [exec], by simp [exec]⟩
  · intro k hk
    simp only [List.length_append, List.length_cons, List.length_nil] at hk
    by_cases hke : k = vs.length
    · subst hke
      rw [hmem]
      constructor
      · rw [writeCell_other _ _ _ _ hfv, writeCell_self]
      · rw [writeCell_self, Nat.mod_eq_of_lt hv, getD_append_length]
    · have hklt : k < vs.length := by omega
      have h1 : slotFlag L k ≠ slotVal L vs.length := by
        simp only [slotFlag, slotVal]; omega
      have h2 : slotFlag L k ≠ slotFlag L vs.length := by
        simp only [slotFlag]; omega
      have h3 : slotVal L k ≠ slotVal L vs.length := by
        simp only [slotVal]; omega
      have h4 : slotVal L k ≠ slotFlag L vs.length := by
        simp only [slotFlag, slotVal]; omega
      rw [hmem, writeCell_other _ _ _ _ h1, writeCell_other _ _ _ _ h2,
        writeCell_other _ _ _ _ h3, writeCell_other _ _ _ _ h4,
        getD_append_left _ _ _ hklt]
      exact hslots k hklt
  · rw [hframe L.stack (by omega)]
    exact hs0
  · rw [hframe (L.stack + 1) (by omega)]
    exact hs1
  · intro j hj
    simp only [List.length_append, List.length_cons, List.length_nil] at hj
    rw [hmem, writeCell_other _ _ _ _ (by simp only [slotVal, slotFlag]; omega),
      writeCell_other _ _ _ _ (by simp only [slotFlag]; omega)]
    exact hbeyond j (by omega)
  · rw [hmem]
    exact memWF_writeCell (memWF_writeCell hm _ _) _ _

/-- Pushing a sequence of values appends the corresponding slots in order,
touching nothing below the pre-push stack top. -/
theorem pushes_spec (L : MemoryLayout) : ∀ (vs ws : List Nat),
    (∀ v ∈ vs, v < 256) →
    ∀ st : St, MemWF st.mem → StackRep L ws st.mem → st.sp = ws.length →
    StackRep L (ws ++ vs) (execList L (vs.map .PUSH_V) st).mem ∧
    (execList L (vs.map .PUSH_V) st).sp = (ws ++ vs).length ∧
    MemWF (execList L (vs.map .PUSH_V) st).mem ∧
    (∀ j, j < L.stack + 2 + 2 * ws.length →
      (execList L (vs.map .PUSH_V) st).mem j = st.mem j) ∧
    (execList L (vs.map .PUSH_V) st).inp = st.inp ∧
    (execList L (vs.map .PUSH_V) st).out = st.out := by
  intro vs
  induction vs with
  | nil =>
    intro ws _ st hm hrep hsp
    exact ⟨by simpa using hrep, by simpa using hsp, hm, fun j _ => rfl, rfl, rfl⟩
  | cons v vs ih =>
    intro ws hv st hm hrep hsp
    have hpush := push_step L ws v (hv v (by simp)) st hm hrep hsp
    rw [List.map_cons, execList_cons]
    have hnext := ih (ws ++ [v]) (fun u hu => hv u (by simp [hu]))
      (exec L (.PUSH_V v) st) hpush.2.2.1 hpush.1 hpush.2.1
    have happ : (ws ++ [v]) ++ vs = ws ++ (v :: vs) := by
      simp
    rw [happ] at hnext
    refine ⟨hnext.1, hnext.2.1, hnext.2.2.1, ?_, ?_, ?_⟩
    · intro j hj
      have hjb : j < L.stack + 2 + 2 * (ws ++ [v]).length := by
        simp only [List.length_append, List.length_cons, List.length_nil]
        omega
      rw [hnext.2.2.2.1 j hjb]
      exact hpush.2.2.2.1 j hj
    · rw [hnext.2.2.2.2.1, hpush.2.2.2.2.1]
    · rw [hnext.2.2.2.2.2, hpush.2.2.2.2.2]

/-- POP copies the top slot's value into the destination register, clears
both cells of that slot and retreats the tracked top by one slot, touching
nothing else. -/
theorem pop_step (L : MemoryLayout) (hL : L.WF) (r : Nat) (hr : r ∈ L.registers)
    (us : List Nat) (v : Nat) (st : St) (hm : MemWF st.mem)
    (hrep : StackRep L (us ++ [v]) st.mem) (hsp : st.sp = us.length + 1) :
    (exec L (.POP_R r) st).mem r = v ∧
    StackRep L us (exec L (.POP_R r) st).mem ∧
    (exec L (.POP_R r) st).sp = us.length ∧
    MemWF (exec L (.POP_R r) st).mem ∧
    (∀ j, j ≠ r → j < L.stack + 2 + 2 * us.length →
      (exec L (.POP_R r) st).mem j = st.mem j) ∧
    (exec L (.POP_R r) st).inp = st.inp ∧ (exec L (.POP_R r) st).out = st.out := by
  obtain ⟨hslots, hs0, hs1, hbeyond⟩ := hrep
  have hrlt : r < L.stack := by
    have h1 := hL.2.2.2.2.2.1 r hr
    have h2 := hL.2.2.2.2.2.2
    omega
  have hvtop : st.mem (slotVal L us.length) = v := by
    have := (hslots us.length (by simp)).2
    rwa [getD_append_length] at this
  have hvlt : v < 256 := by
    rw [← hvtop]
    exact hm _
  have hmem : (exec L (.POP_R r) st).mem =
      writeCell (writeCell (writeCell st.mem r (st.mem (slotVal L us.length)))
        (slotVal L us.length) 0) (slotFlag L us.length) 0 := by
    simp [exec, hsp]
  have hsp' : (exec L (.POP_R r) st).sp = us.length := by
    simp [exec, hsp]
  have hrf : r ≠ slotFlag L us.length := by
    simp only [slotFlag]; omega
  have hrv : r ≠ slotVal L us.length := by
    simp only [slotVal]; omega
  have hfv : slotVal L us.length ≠ slotFlag L us.length := by
    simp only [slotFlag, slotVal]; omega
  have hframe : ∀ j, j ≠ r → j < L.stack + 2 + 2 * us.length →
      (exec L (.POP_R r) st).mem j = st.mem j := by
    intro j hjr hj
    rw [hmem, writeCell_other _ _ _ _ (by simp only [slotFlag]; omega),
      writeCell_other _ _ _ _ (by simp only [slotVal]; omega),
      writeCell_other _ _ _ _ hjr]
  refine ⟨?_, ⟨?_, ?_, ?_, ?_⟩, hsp', ?_, hframe, by simp [exec, hsp], by simp [exec, hsp]⟩
  · rw [hmem, writeCell_other _ _ _ _ hrf, writeCell_other _ _ _ _ hrv,
      writeCell_self, hvtop, Nat.mod_eq_of_lt hvlt]
  · intro k hk
    have hkb : k < (us ++ [v]).length := by
      simp only [List.length_append, List.length_cons, List.length_nil]
      omega
    have h := hslots k hkb
    rw [getD_append_left _ _ _ hk] at h
    rw [hframe (slotFlag L k) (by simp only [slotFlag]; omega)
        (by simp only [slotFlag]; omega),
      hframe (slotVal L k) (by simp only [slotVal]; omega)
        (by simp only [slotVal]; omega)]
    exact h
  · rw [hframe L.stack (by omega) (by omega)]
    exact hs0
  · rw [hframe (L.stack + 1) (by omega) (by omega)]
    exact hs1
  · intro j hj
    by_cases hjf : j = slotFlag L us.length
    · subst hjf
      rw [hmem, writeCell_self]
    · by_cases hjv : j = slotVal L us.length
      · subst hjv
        rw [hmem, writeCell_other _ _ _ _ hfv, writeCell_self]
      · rw [hmem, writeCell_other _ _ _ _ hjf, writeCell_other _ _ _ _ hjv,
          writeCell_other _ _ _ _ (by simp only [slotFlag] at hjf ⊢; omega)]
        refine hbeyond j ?_
        simp only [slotFlag, slotVal, List.length_append, List.length_cons,
          List.length_nil] at hjf hjv ⊢
        omega
  · rw [hmem]
    exact memWF_writeCell (memWF_writeCell (memWF_writeCell hm _ _) _ _) _ _

/-- Popping `n` times from a stack holding `ws` leaves the bottom
`ws.length - n` slots, clears everything above them, delivers the value at
depth `n` (the `n`-th from the top) into the register, and touches nothing
else. -/
theorem pops_spec (L : MemoryLayout) (hL : L.WF) (r : Nat) (hr : r ∈ L.registers) :
    ∀ (n : Nat) (ws : List Nat) (st : St), MemWF st.mem → StackRep L ws st.mem →
    st.sp = ws.length → n ≤ ws.length →
    StackRep L (ws.take (ws.length - n))
      (execList L (List.replicate n (.POP_R r)) st).mem ∧
    (execList L (List.replicate n (.POP_R r)) st).sp = ws.length - n ∧
    MemWF (execList L (List.replicate n (.POP_R r)) st).mem ∧
    (1 ≤ n → (execList L (List.replicate n (.POP_R r)) st).mem r =
      ws.getD (ws.length - n) 0) ∧
    (∀ j, j ≠ r → j < L.stack + 2 + 2 * (ws.length - n) →
      (execList L (List.replicate n (.POP_R r)) st).mem j = st.mem j) ∧
    (execList L (List.replicate n (.POP_R r)) st).inp = st.inp ∧
    (execList L (List.replicate n (.POP_R r)) st).out = st.out := by
  intro n
  induction n with
  | zero =>
    intro ws st hm hrep hsp hn
    refine ⟨by simpa using hrep, by simpa using hsp, hm, fun h => by omega,
      fun j _ _ => rfl, rfl, rfl⟩
  | succ n ih =>
    intro ws st hm hrep hsp hn
    rcases List.eq_nil_or_concat ws with hws | ⟨us, v, hws⟩
    · subst hws
      simp at hn
    · rw [List.concat_eq_append] at hws
      subst hws
      have hlen : (us ++ [v]).length = us.length + 1 := by simp
      rw [List.replicate_succ, execList_cons]
      have hpop := pop_step L hL r hr us v st hm ⟨hrep.1, hrep.2.1, hrep.2.2.1,
        hrep.2.2.2⟩ (by rw [hsp, hlen])
      have hih := ih us (exec L (.POP_R r) st) hpop.2.2.2.1 hpop.2.1 hpop.2.2.1
        (by rw [hlen] at hn; omega)
      have hidx : (us ++ [v]).length - (n + 1) = us.length - n := by
        rw [hlen]; omega
      have htake : (us ++ [v]).take (us.length - n) = us.take (us.length - n) := by
        rw [List.take_append_eq_append_take,
          show us.length - n - us.length = 0 by omega, List.take_zero,
          List.append_nil]
      refine ⟨?_, ?_, hih.2.2.1, ?_, ?_, ?_, ?_⟩
      · rw [hidx, htake]
        exact hih.1
      · rw [hih.2.1, hlen]
        omega
      · intro _
        rw [hidx]
        by_cases hn0 : n = 0
        · subst hn0
          simp only [List.replicate, execList_nil, Nat.sub_zero]
          rw [getD_append_length]
          exact hpop.1
        · rw [getD_append_left _ _ _ (by omega), hih.2.2.2.1 (by omega)]
      · intro j hjr hj
        rw [hidx] at hj
        rw [hih.2.2.2.2.1 j hjr (by omega)]
        exact hpop.2.2.2.2.1 j hjr (by omega)
      · rw [hih.2.2.2.2.2.1, hpop.2.2.2.2.2.1]
      · rw [hih.2.2.2.2.2.2, hpop.2.2.2.2.2.2]

/-! ## Control-flow execution lemmas -/

theorem runProg_nil (L : MemoryLayout) (fuel : Nat) (st : St) :
    runProg L fuel .nil st = some st := by
  simp only [runProg]

theorem runProg_seq (L : MemoryLayout) (fuel : Nat) (i : Instr) (p : Prog) (st : St) :
    runProg L fuel (.seq i p) st = runProg L fuel p (exec L i st) := by
  simp only [runProg]

theorem runProg_ifB (L : MemoryLayout) (fuel : Nat) (body rest : Prog) (st : St) :
    runProg L fuel (.ifB body rest) st =
      runProg L fuel (.loop (body.snoc .FALSE) rest) st := by
  simp only [runProg]

theorem runProg_loop_exit (L : MemoryLayout) (fuel : Nat) (body rest : Prog)
    (st : St) (h : st.mem L.rc = 0) :
    runProg L (fuel + 1) (.loop body rest) st = runProg L (fuel + 1) rest st := by
  simp only [runProg, if_pos h]

theorem runProg_loop_iter (L : MemoryLayout) (fuel : Nat) (body rest : Prog)
    (st st1 : St) (h : st.mem L.rc ≠ 0) (hbody : runProg L fuel body st = some st1) :
    runProg L (fuel + 1) (.loop body rest) st =
      runProg L fuel (.loop body rest) st1 := by
  simp only [runProg, if_neg h, hbody]

/-- The loop body of the decrement/increment transfer idiom:
`DEC r0; INC r1; NZ r0` (the bfal program refreshes RC before ENDLOOP). -/
def decIncBody (r0 r1 : Nat) : Prog :=
  .seq (.DEC_R r0) (.seq (.INC_R r1) (.seq (.NZ_R r0) .nil))

/-- Net effect of the RC-guarded loop around `decIncBody`: with `r0 = j`
and RC primed with the zero-test of `r0`, the loop runs exactly `j`
iterations, moving `j` into `r1` by repeated increment and ending with
`r0 = 0` and RC = 0.  Fuel `j + 1` suffices (one bracket evaluation per
iteration plus the final exit). -/
theorem loop_decinc_aux (L : MemoryLayout) (r0 r1 : Nat) (hne : r0 ≠ r1)
    (h0rc : r0 ≠ L.rc) (h1rc : r1 ≠ L.rc) :
    ∀ (j : Nat) (fuel : Nat) (st : St), MemWF st.mem → st.mem r0 = j →
    st.mem L.rc = (if j = 0 then 0 else 1) → j + 1 ≤ fuel →
    runProg L fuel (.loop (decIncBody r0 r1) .nil) st =
      some { st with mem := writeCell (writeCell (writeCell st.mem L.rc 0) r1
        (st.mem r1 + j)) r0 0 } := by
  intro j
  induction j with
  | zero =>
    intro fuel st hm h0 hrc hf
    obtain ⟨f, rfl⟩ : ∃ f, fuel = f + 1 := ⟨fuel - 1, by omega⟩
    rw [if_pos rfl] at hrc
    rw [runProg_loop_exit L f _ _ st hrc, runProg_nil]
    have e1 : writeCell st.mem L.rc 0 = st.mem := writeCell_id _ _ _ hrc (by omega)
    rw [e1, Nat.add_zero, writeCell_id _ _ _ rfl (hm r1), writeCell_id _ _ _ h0 (by omega)]
  | succ j ih =>
    intro fuel st hm h0 hrc hf
    obtain ⟨f, rfl⟩ : ∃ f, fuel = f + 1 := ⟨fuel - 1, by omega⟩
    rw [if_neg (by omega)] at hrc
    have hrcne : st.mem L.rc ≠ 0 := by omega
    have hbody : runProg L f (decIncBody r0 r1) st =
        some (exec L (.NZ_R r0) (exec L (.INC_R r1) (exec L (.DEC_R r0) st))) := by
      rw [decIncBody, runProg_seq, runProg_seq, runProg_seq, runProg_nil]
    rw [runProg_loop_iter L f _ _ st _ hrcne hbody]
    have hwf0 := hm r0
    set st1 := exec L (.NZ_R r0) (exec L (.INC_R r1) (exec L (.DEC_R r0) st)) with hst1
    have hmem1 : st1.mem = writeCell (writeCell (writeCell st.mem r0 (st.mem r0 + 255))
        r1 (st.mem r1 + 1)) L.rc (if j = 0 then 0 else 1) := by
      rw [hst1]
      simp only [exec, rcSet]
      have ew1 : writeCell st.mem r0 (st.mem r0 + 255) r1 = st.mem r1 :=
        writeCell_other _ _ _ _ hne.symm
      simp only [ew1]
      have ew2 : writeCell (writeCell st.mem r0 (st.mem r0 + 255)) r1
          (st.mem r1 + 1) r0 = j := by
        rw [writeCell_other _ _ _ _ hne, writeCell_self]
        omega
      simp only [ew2]
    have hsp1 : st1.sp = st.sp := by rw [hst1]; simp [exec, rcSet]
    have hinp1 : st1.inp = st.inp := by rw [hst1]; simp [exec, rcSet]
    have hout1 : st1.out = st.out := by rw [hst1]; simp [exec, rcSet]
    have hm1 : MemWF st1.mem := by
      rw [hmem1]
      exact memWF_writeCell (memWF_writeCell (memWF_writeCell hm _ _) _ _) _ _
    have h01 : st1.mem r0 = j := by
      rw [hmem1, writeCell_other _ _ _ _ h0rc, writeCell_other _ _ _ _ hne,
        writeCell_self]
      omega
    have hrc1 : st1.mem L.rc = (if j = 0 then 0 else 1) := by
      rw [hmem1, writeCell_self]
      by_cases hj0 : j = 0 <;> simp [hj0]
    rw [ih f st1 hm1 h01 hrc1 (by omega)]
    congr 1
    refine St.ext ?_ hsp1 hinp1 hout1
    funext c
    dsimp only
    by_cases hc0 : c = r0
    · rw [hc0, writeCell_self, writeCell_self]
    · by_cases hc1 : c = r1
      · rw [hc1]
        have hr1r0 : r1 ≠ r0 := hne.symm
        conv_lhs => rw [writeCell_other _ _ _ _ hr1r0, writeCell_self]
        conv_rhs => rw [writeCell_other _ _ _ _ hr1r0, writeCell_self]
        have er1 : st1.mem r1 = (st.mem r1 + 1) % 256 := by
          rw [hmem1, writeCell_other _ _ _ _ h1rc, writeCell_self]
        rw [er1, Nat.mod_add_mod]
        congr 1
        omega
      · by_cases hcr : c = L.rc
        · rw [hcr]
          have ha : L.rc ≠ r0 := Ne.symm h0rc
          have hb : L.rc ≠ r1 := Ne.symm h1rc
          conv_lhs => rw [writeCell_other _ _ _ _ ha, writeCell_other _ _ _ _ hb,
            writeCell_self]
          conv_rhs => rw [writeCell_other _ _ _ _ ha, writeCell_other _ _ _ _ hb,
            writeCell_self]
        · conv_lhs => rw [writeCell_other _ _ _ _ hc0, writeCell_other _ _ _ _ hc1,
            writeCell_other _ _ _ _ hcr]
          conv_rhs => rw [writeCell_other _ _ _ _ hc0, writeCell_other _ _ _ _ hc1,
            writeCell_other _ _ _ _ hcr]
          rw [hmem1, writeCell_other _ _ _ _ hcr, writeCell_other _ _ _ _ hc1,
            writeCell_other _ _ _ _ hc0]

/-- Running `NZ r0; IF; DEC r0; INC r1; ENDIF`: the underlying loop of the
IF executes its body at most once, because the compiler forces RC to 0
after the body's final instruction and before the closing bracket.  With
`r0 = 0` the body is skipped entirely; otherwise it runs exactly once. -/
theorem if_decinc_run (L : MemoryLayout) (r0 r1 : Nat) (hne : r0 ≠ r1)
    (h0rc : r0 ≠ L.rc) (h1rc : r1 ≠ L.rc) (fuel : Nat) (hf : 2 ≤ fuel)
    (st : St) (hm : MemWF st.mem) :
    runProg L fuel (.seq (.NZ_R r0)
        (.ifB (.seq (.DEC_R r0) (.seq (.INC_R r1) .nil)) .nil)) st =
      some { st with mem :=
        (if st.mem r0 = 0 then writeCell st.mem L.rc 0
          else writeCell (writeCell (writeCell st.mem L.rc 0) r1 (st.mem r1 + 1))
            r0 (st.mem r0 - 1)) } := by
  obtain ⟨f, rfl⟩ : ∃ f, fuel = f + 2 := ⟨fuel - 2, by omega⟩
  rw [runProg_seq, runProg_ifB]
  have hsnoc : (Prog.seq (.DEC_R r0) (.seq (.INC_R r1) .nil)).snoc .FALSE =
      .seq (.DEC_R r0) (.seq (.INC_R r1) (.seq .FALSE .nil)) := rfl
  rw [hsnoc]
  have hmem1 : (exec L (.NZ_R r0) st).mem =
      writeCell st.mem L.rc (if st.mem r0 = 0 then 0 else 1) := by
    simp only [exec, rcSet]
  by_cases h0 : st.mem r0 = 0
  · have hrc0 : (exec L (.NZ_R r0) st).mem L.rc = 0 := by
      rw [hmem1, writeCell_self, if_pos h0]
    have hshape : f + 2 = f + 1 + 1 := rfl
    rw [hshape, runProg_loop_exit L (f + 1) _ _ _ hrc0, runProg_nil, if_pos h0]
    congr 1
    refine St.ext ?_ (by simp [exec, rcSet]) (by simp [exec, rcSet])
      (by simp [exec, rcSet])
    dsimp only
    rw [hmem1, if_pos h0]
  · have hrc1 : (exec L (.NZ_R r0) st).mem L.rc ≠ 0 := by
      rw [hmem1, writeCell_self, if_neg h0]
      omega
    have hbody : runProg L (f + 1)
        (.seq (.DEC_R r0) (.seq (.INC_R r1) (.seq .FALSE .nil)))
        (exec L (.NZ_R r0) st) =
        some (exec L .FALSE (exec L (.INC_R r1)
          (exec L (.DEC_R r0) (exec L (.NZ_R r0) st)))) := by
      rw [runProg_seq, runProg_seq, runProg_seq, runProg_nil]
    have hshape : f + 2 = f + 1 + 1 := rfl
    rw [hshape, runProg_loop_iter L (f + 1) _ _ _ _ hrc1 hbody]
    have hrc2 : (exec L .FALSE (exec L (.INC_R r1)
        (exec L (.DEC_R r0) (exec L (.NZ_R r0) st)))).mem L.rc = 0 := by
      simp only [exec, rcSet]
      rw [writeCell_self]
    rw [runProg_loop_exit L f _ _ _ hrc2, runProg_nil, if_neg h0]
    congr 1
    refine St.ext ?_ (by simp [exec, rcSet]) (by simp [exec, rcSet])
      (by simp [exec, rcSet])
    dsimp only
    simp only [exec, rcSet]
    simp only [if_neg h0]
    funext c
    by_cases hcr : c = L.rc
    · rw [hcr]
      have ha : L.rc ≠ r0 := Ne.symm h0rc
      have hb : L.rc ≠ r1 := Ne.symm h1rc
      conv_lhs => rw [writeCell_self]
      conv_rhs => rw [writeCell_other _ _ _ _ ha, writeCell_other _ _ _ _ hb,
        writeCell_self]
    · by_cases hc1 : c = r1
      · rw [hc1]
        have hr1r0 : r1 ≠ r0 := hne.symm
        conv_lhs => rw [writeCell_other _ _ _ _ h1rc, writeCell_self,
          writeCell_other _ _ _ _ hr1r0, writeCell_other _ _ _ _ h1rc]
        conv_rhs => rw [writeCell_other _ _ _ _ hr1r0, writeCell_self]
      · by_cases hc0 : c = r0
        · rw [hc0]
          conv_lhs => rw [writeCell_other _ _ _ _ h0rc,
            writeCell_other _ _ _ _ hne, writeCell_self,
            writeCell_other _ _ _ _ h0rc]
          conv_rhs => rw [writeCell_self]
          have := hm r0
          omega
        · conv_lhs => rw [writeCell_other _ _ _ _ hcr,
            writeCell_other _ _ _ _ hc1, writeCell_other _ _ _ _ hc0,
            writeCell_other _ _ _ _ hcr]
          conv_rhs => rw [writeCell_other _ _ _ _ hc0,
            writeCell_other _ _ _ _ hc1, writeCell_other _ _ _ _ hcr]

/-! ## Compile-and-run helpers and concrete instances for evaluation -/

theorem runOne_of_init {L : MemoryLayout} (hL : L.WF) {st : St}
    (hc : ConstsInit L st.mem) (i : Instr) : runOne L i st = exec L i st := by
  rw [runOne, initSt_of_init hL hc]

theorem runList_of_init {L : MemoryLayout} (hL : L.WF) {st : St}
    (hc : ConstsInit L st.mem) (is : List Instr) :
    runList L is st = execList L is st := by
  rw [runList, initSt_of_init hL hc]

theorem runProgC_of_init {L : MemoryLayout} (hL : L.WF) {st : St}
    (hc : ConstsInit L st.mem) (fuel : Nat) (p : Prog) :
    runProgC L fuel p st = runProg L fuel p st := by
  rw [runProgC, initSt_of_init hL hc]

/-- A concrete well-formed layout: one zero-valued constant/scratch cell,
eight registers, RC, then the STACK cell. -/
def L0 : MemoryLayout :=
  { constants := [(0, 0)], registers := [1, 2, 3, 4, 5, 6, 7, 8], rc := 9,
    stack := 10, tmp := 0 }

/-- The all-zero initial state. -/
def st0 : St := { mem := fun _ => 0, sp := 0, inp := [], out := [] }

/-- A state with one register preset. -/
def stR (r v : Nat) : St := { st0 with mem := writeCell st0.mem r v }

theorem memWF_st0 : MemWF st0.mem := memWF_zero

theorem memWF_stR (r v : Nat) : MemWF (stR r v).mem :=
  memWF_writeCell memWF_zero r v

theorem constsInit_st0 : ConstsInit L0 st0.mem := by decide

theorem stackRep_nil_st0 : StackRep L0 [] st0.mem := by
  refine ⟨fun k hk => by simp at hk, rfl, rfl, fun j _ => rfl⟩

/-! ## The claims -/

/-- C2: For ADD, SUB and MUL with three register operands, when a source
register is also the destination (destination equal to the first source,
the second source, or all three equal), the destination's final value is
the operation applied to the values the operand registers held immediately
before the opcode executed: operand aliasing is resolved by reading all
operands into scratch cells before any destination is written, so the
result is always computed from the pre-state (no distinctness hypotheses
appear below). -/
theorem arith_rrr_alias_pre_state (L : MemoryLayout) (hL : L.WF)
    (r0 r1 r2 : Nat) (hr0 : r0 ∈ L.registers) (hr1 : r1 ∈ L.registers)
    (hr2 : r2 ∈ L.registers) (st : St) (hm : MemWF st.mem)
    (hc : ConstsInit L st.mem) :
    (runOne L (.ADD_RRR r0 r1 r2) st).mem r0 = (st.mem r1 + st.mem r2) % 256 ∧
    (runOne L (.SUB_RRR r0 r1 r2) st).mem r0 = (256 + st.mem r1 - st.mem r2) % 256 ∧
    (runOne L (.MUL_RRR r0 r1 r2) st).mem r0 = (st.mem r1 * st.mem r2) % 256 := by
  rw [runOne_of_init hL hc, runOne_of_init hL hc, runOne_of_init hL hc]
  refine ⟨?_, ?_, ?_⟩
  · simp only [exec]
    rw [writeCell_self]
  · simp only [exec]
    rw [writeCell_self, sub8]
    have h2 := hm r2
    omega
  · simp only [exec]
    rw [writeCell_self]

theorem arith_rrr_alias_pre_state_witness :
    (runOne L0 (.ADD_RRR 1 1 1) (stR 1 100)).mem 1 =
      ((stR 1 100).mem 1 + (stR 1 100).mem 1) % 256 ∧
    (runOne L0 (.SUB_RRR 1 1 1) (stR 1 100)).mem 1 =
      (256 + (stR 1 100).mem 1 - (stR 1 100).mem 1) % 256 ∧
    (runOne L0 (.MUL_RRR 1 1 1) (stR 1 100)).mem 1 =
      ((stR 1 100).mem 1 * (stR 1 100).mem 1) % 256 :=
  arith_rrr_alias_pre_state L0 (by decide) 1 1 1 (by decide) (by decide)
    (by decide) (stR 1 100) (memWF_stR 1 100) (by decide)

/-- C3: DIV with a zero divisor stores 0 in the destination register and
does not fault (the repeated-subtraction generator special-cases a zero
divisor), in all three operand shapes, for any dividend and any register
contents. -/
theorem div_by_zero_yields_zero (L : MemoryLayout) (hL : L.WF)
    (r r1 r2 : Nat) (hr : r ∈ L.registers) (hr1 : r1 ∈ L.registers)
    (hr2 : r2 ∈ L.registers) (st : St) (hm : MemWF st.mem)
    (hc : ConstsInit L st.mem) (a : Nat) (h2 : st.mem r2 = 0) :
    (runOne L (.DIV_RVV r a 0) st).mem r = 0 ∧
    (runOne L (.DIV_RRV r r1 0) st).mem r = 0 ∧
    (runOne L (.DIV_RRR r r1 r2) st).mem r = 0 := by
  rw [runOne_of_init hL hc, runOne_of_init hL hc, runOne_of_init hL hc]
  refine ⟨?_, ?_, ?_⟩ <;>
    simp [exec, writeCell_self, divLoop_zero, h2]

theorem div_by_zero_yields_zero_witness :
    (runOne L0 (.DIV_RVV 1 200 0) (stR 2 77)).mem 1 = 0 ∧
    (runOne L0 (.DIV_RRV 1 2 0) (stR 2 77)).mem 1 = 0 ∧
    (runOne L0 (.DIV_RRR 1 2 3) (stR 2 77)).mem 1 = 0 :=
  div_by_zero_yields_zero L0 (by decide) 1 2 3 (by decide) (by decide)
    (by decide) (stR 2 77) (memWF_stR 2 77) (by decide) 200 (by decide)

/-- C7: A comparison opcode applied to the same register as both operands
writes the degenerate truth value of its relation on equal arguments into
RC (1 for EQ, GE, LE; 0 for NE, GT, LT) and leaves the register's value
uncorrupted. -/
theorem cmp_same_register_degenerate (L : MemoryLayout) (hL : L.WF)
    (r : Nat) (hr : r ∈ L.registers) (st : St) (hm : MemWF st.mem)
    (hc : ConstsInit L st.mem) :
    ((runOne L (.EQ_RR r r) st).mem L.rc = 1 ∧
      (runOne L (.EQ_RR r r) st).mem r = st.mem r) ∧
    ((runOne L (.NE_RR r r) st).mem L.rc = 0 ∧
      (runOne L (.NE_RR r r) st).mem r = st.mem r) ∧
    ((runOne L (.GT_RR r r) st).mem L.rc = 0 ∧
      (runOne L (.GT_RR r r) st).mem r = st.mem r) ∧
    ((runOne L (.GE_RR r r) st).mem L.rc = 1 ∧
      (runOne L (.GE_RR r r) st).mem r = st.mem r) ∧
    ((runOne L (.LT_RR r r) st).mem L.rc = 0 ∧
      (runOne L (.LT_RR r r) st).mem r = st.mem r) ∧
    ((runOne L (.LE_RR r r) st).mem L.rc = 1 ∧
      (runOne L (.LE_RR r r) st).mem r = st.mem r) := by
  have hrlt : r < L.rc := hL.2.2.2.2.2.1 r hr
  have hrne : r ≠ L.rc := by omega
  refine ⟨⟨?_, ?_⟩, ⟨?_, ?_⟩, ⟨?_, ?_⟩, ⟨?_, ?_⟩, ⟨?_, ?_⟩, ⟨?_, ?_⟩⟩ <;>
    rw [runOne_of_init hL hc] <;>
    simp only [exec, rcSet] <;>
    first
      | (rw [writeCell_other _ _ _ _ hrne])
      | (rw [writeCell_self]; simp)

theorem cmp_same_register_degenerate_witness :
    ((runOne L0 (.EQ_RR 3 3) (stR 3 42)).mem L0.rc = 1 ∧
      (runOne L0 (.EQ_RR 3 3) (stR 3 42)).mem 3 = (stR 3 42).mem 3) ∧
    ((runOne L0 (.NE_RR 3 3) (stR 3 42)).mem L0.rc = 0 ∧
      (runOne L0 (.NE_RR 3 3) (stR 3 42)).mem 3 = (stR 3 42).mem 3) ∧
    ((runOne L0 (.GT_RR 3 3) (stR 3 42)).mem L0.rc = 0 ∧
      (runOne L0 (.GT_RR 3 3) (stR 3 42)).mem 3 = (stR 3 42).mem 3) ∧
    ((runOne L0 (.GE_RR 3 3) (stR 3 42)).mem L0.rc = 1 ∧
      (runOne L0 (.GE_RR 3 3) (stR 3 42)).mem 3 = (stR 3 42).mem 3) ∧
    ((runOne L0 (.LT_RR 3 3) (stR 3 42)).mem L0.rc = 0 ∧
      (runOne L0 (.LT_RR 3 3) (stR 3 42)).mem 3 = (stR 3 42).mem 3) ∧
    ((runOne L0 (.LE_RR 3 3) (stR 3 42)).mem L0.rc = 1 ∧
      (runOne L0 (.LE_RR 3 3) (stR 3 42)).mem 3 = (stR 3 42).mem 3) :=
  cmp_same_register_degenerate L0 (by decide) 3 (by decide) (stR 3 42)
    (memWF_stR 3 42) (by decide)

/-- C8: `ADD r0 r1 b` with distinct registers and `r1` preset to `a` yields
`cell(r0) = (a + b) mod 256` and leaves `r1` unchanged. -/
theorem add_rrv_mod256 (L : MemoryLayout) (hL : L.WF) (r0 r1 : Nat)
    (hr0 : r0 ∈ L.registers) (hr1 : r1 ∈ L.registers) (hne : r0 ≠ r1)
    (a b : Nat) (ha : a ≤ 255) (hb : b ≤ 255) (st : St) (hm : MemWF st.mem)
    (hc : ConstsInit L st.mem) (hpre : st.mem r1 = a) :
    (runOne L (.ADD_RRV r0 r1 b) st).mem r0 = (a + b) % 256 ∧
    (runOne L (.ADD_RRV r0 r1 b) st).mem r1 = a := by
  rw [runOne_of_init hL hc]
  constructor
  · simp only [exec]
    rw [writeCell_self, hpre]
  · simp only [exec]
    rw [writeCell_other _ _ _ _ (Ne.symm hne), hpre]

theorem add_rrv_mod256_witness :
    (runOne L0 (.ADD_RRV 1 2 200) (stR 2 100)).mem 1 = (100 + 200) % 256 ∧
    (runOne L0 (.ADD_RRV 1 2 200) (stR 2 100)).mem 2 = 100 :=
  add_rrv_mod256 L0 (by decide) 1 2 (by decide) (by decide) (by decide)
    100 200 (by decide) (by decide) (stR 2 100) (memWF_stR 2 100) (by decide)
    (by decide)

/-- C10: The k-th pushed slot (0-based) lands at tape offsets
`index(STACK) + 2 + 2k` (presence flag = 1) and `index(STACK) + 3 + 2k`
(value); the STACK cell itself and the cell immediately after it remain 0,
so occupied slots form a contiguous sequence beginning two cells past the
STACK cell rather than at the STACK cell itself. -/
theorem push_slot_offsets (L : MemoryLayout) (hL : L.WF) (vs : List Nat)
    (hvs : ∀ v ∈ vs, v < 256) (st : St) (hm : MemWF st.mem)
    (hc : ConstsInit L st.mem) (hrep : StackRep L [] st.mem)
    (hsp : st.sp = 0) :
    (∀ k, k < vs.length →
      (runList L (vs.map .PUSH_V) st).mem (L.stack + 2 + 2 * k) = 1 ∧
      (runList L (vs.map .PUSH_V) st).mem (L.stack + 2 + 2 * k + 1) =
        vs.getD k 0) ∧
    (runList L (vs.map .PUSH_V) st).mem L.stack = 0 ∧
    (runList L (vs.map .PUSH_V) st).mem (L.stack + 1) = 0 := by
  rw [runList_of_init hL hc]
  have h := pushes_spec L vs [] hvs st hm hrep hsp
  exact ⟨fun k hk => h.1.1 k hk, h.1.2.1, h.1.2.2.1⟩

theorem push_slot_offsets_witness :
    (runList L0 ([3, 7].map .PUSH_V) st0).mem (L0.stack + 2 + 2 * 0) = 1 ∧
    (runList L0 ([3, 7].map .PUSH_V) st0).mem (L0.stack + 2 + 2 * 0 + 1) =
      [3, 7].getD 0 0 :=
  (push_slot_offsets L0 (by decide) [3, 7] (by decide) st0 memWF_st0
    constsInit_st0 stackRep_nil_st0 rfl).1 0 (by decide)

/-- C4: pushing `[v0, …, vn]` in order and popping `i + 1` times delivers
the values into the destination register in reverse order (the `(i+1)`-th
pop yields `v(n-i)`), each pop clears both cells of the popped slot to 0,
and after all `n + 1` pops the whole stack region is back in its all-zero
pre-push state. -/
theorem stack_roundtrip (L : MemoryLayout) (hL : L.WF) (r : Nat)
    (hr : r ∈ L.registers) (vs : List Nat) (hvs : ∀ v ∈ vs, v < 256)
    (st : St) (hm : MemWF st.mem) (hc : ConstsInit L st.mem)
    (hrep : StackRep L [] st.mem) (hsp : st.sp = 0) :
    (∀ i, i < vs.length →
      (execList L (List.replicate (i + 1) (.POP_R r))
        (runList L (vs.map .PUSH_V) st)).mem r = vs.getD (vs.length - 1 - i) 0 ∧
      (∀ k, vs.length - (i + 1) ≤ k →
        (execList L (List.replicate (i + 1) (.POP_R r))
          (runList L (vs.map .PUSH_V) st)).mem (slotFlag L k) = 0 ∧
        (execList L (List.replicate (i + 1) (.POP_R r))
          (runList L (vs.map .PUSH_V) st)).mem (slotVal L k) = 0)) ∧
    (∀ j, L.stack ≤ j →
      (execList L (List.replicate vs.length (.POP_R r))
        (runList L (vs.map .PUSH_V) st)).mem j = 0) := by
  rw [runList_of_init hL hc]
  have hpush := pushes_spec L vs [] hvs st hm hrep hsp
  have hplen : ([] ++ vs : List Nat).length = vs.length := by simp
  constructor
  · intro i hi
    have hpops := pops_spec L hL r hr (i + 1) vs
      (execList L (vs.map .PUSH_V) st) hpush.2.2.1 (by simpa using hpush.1)
      (by rw [hpush.2.1, hplen]) (by omega)
    have hlt : (vs.take (vs.length - (i + 1))).length = vs.length - (i + 1) := by
      rw [List.length_take]
      omega
    constructor
    · have hval := hpops.2.2.2.1 (by omega)
      rw [hval]
      congr 1
      omega
    · intro k hk
      have hbound := hpops.1.2.2.2
      rw [hlt] at hbound
      constructor
      · exact hbound (slotFlag L k) (by simp only [slotFlag]; omega)
      · exact hbound (slotVal L k) (by simp only [slotVal]; omega)
  · intro j hj
    have hpops := pops_spec L hL r hr vs.length vs
      (execList L (vs.map .PUSH_V) st) hpush.2.2.1 (by simpa using hpush.1)
      (by rw [hpush.2.1, hplen]) (by omega)
    have hlt : (vs.take (vs.length - vs.length)).length = 0 := by
      rw [List.length_take]
      omega
    obtain ⟨⟨hslots, hst0, hst1, hbeyond⟩, _⟩ := hpops
    rw [hlt] at hbeyond
    by_cases hj0 : j = L.stack
    · rw [hj0]
      exact hst0
    · by_cases hj1 : j = L.stack + 1
      · rw [hj1]
        exact hst1
      · exact hbeyond j (by omega)

theorem stack_roundtrip_witness :
    (execList L0 (List.replicate (0 + 1) (.POP_R 1))
      (runList L0 ([3, 7].map .PUSH_V) st0)).mem 1 =
      [3, 7].getD ([3, 7].length - 1 - 0) 0 :=
  ((stack_roundtrip L0 (by decide) 1 (by decide) [3, 7] (by decide) st0
    memWF_st0 constsInit_st0 stackRep_nil_st0 rfl).1 0 (by decide)).1

/-- C6: `NZ r0; LOOP; DEC r0; INC r1; NZ r0; ENDLOOP` with `r0 = k` and
`r1 = 0` terminates (fuel `k + 1` bracket evaluations suffice) and leaves
`r0 = 0` and `r1 = k`, for all `k` in [0, 255]; RC is left 0 by the final
zero-test. -/
theorem loop_decrement_increment (L : MemoryLayout) (hL : L.WF) (r0 r1 : Nat)
    (hr0 : r0 ∈ L.registers) (hr1 : r1 ∈ L.registers) (hne : r0 ≠ r1)
    (st : St) (hm : MemWF st.mem) (hc : ConstsInit L st.mem)
    (k : Nat) (hk : st.mem r0 = k) (hz : st.mem r1 = 0)
    (fuel : Nat) (hf : k + 1 ≤ fuel) :
    runProgC L fuel (.seq (.NZ_R r0) (.loop (decIncBody r0 r1) .nil)) st =
      some { st with mem := (writeCell (writeCell (writeCell st.mem L.rc 0)
        r1 k) r0 0) } := by
  have h0rc : r0 ≠ L.rc := by
    have := hL.2.2.2.2.2.1 r0 hr0
    omega
  have h1rc : r1 ≠ L.rc := by
    have := hL.2.2.2.2.2.1 r1 hr1
    omega
  rw [runProgC_of_init hL hc, runProg_seq]
  have hst1mem : (exec L (.NZ_R r0) st).mem =
      writeCell st.mem L.rc (if st.mem r0 = 0 then 0 else 1) := by
    simp only [exec, rcSet]
  have haux := loop_decinc_aux L r0 r1 hne h0rc h1rc k fuel
    (exec L (.NZ_R r0) st)
    (by rw [hst1mem]; exact memWF_writeCell hm _ _)
    (by rw [hst1mem, writeCell_other _ _ _ _ h0rc, hk])
    (by rw [hst1mem, writeCell_self, hk]; by_cases h : k = 0 <;> simp [h])
    hf
  rw [haux]
  congr 1
  refine St.ext ?_ (by simp [exec, rcSet]) (by simp [exec, rcSet])
    (by simp [exec, rcSet])
  dsimp only
  rw [hst1mem, writeCell_absorb]
  have er1 : writeCell st.mem L.rc (if st.mem r0 = 0 then 0 else 1) r1 =
      st.mem r1 := writeCell_other _ _ _ _ h1rc
  rw [er1, hz, Nat.zero_add]

theorem loop_decrement_increment_witness :
    runProgC L0 4 (.seq (.NZ_R 1) (.loop (decIncBody 1 2) .nil)) (stR 1 3) =
      some { stR 1 3 with mem := (writeCell (writeCell (writeCell
        (stR 1 3).mem L0.rc 0) 2 3) 1 0) } :=
  loop_decrement_increment L0 (by decide) 1 2 (by decide) (by decide)
    (by decide) (stR 1 3) (memWF_stR 1 3) (by decide) 3 (by decide) (by decide)
    4 (by decide)

/-- C5: `NZ r0; IF; DEC r0; INC r1; ENDIF` with `r0 = k` executes the body
at most once — the compiler forces RC to 0 after the body's final
instruction and before the closing bracket, so the loop construct
underlying IF can never repeat: if `k ≠ 0` then `r1` is incremented by
exactly 1 and `r0` decremented by exactly 1; if `k = 0` both are
unchanged (only RC, written by the NZ guard and the IF, changes). -/
theorem if_body_at_most_once (L : MemoryLayout) (hL : L.WF) (r0 r1 : Nat)
    (hr0 : r0 ∈ L.registers) (hr1 : r1 ∈ L.registers) (hne : r0 ≠ r1)
    (st : St) (hm : MemWF st.mem) (hc : ConstsInit L st.mem)
    (k : Nat) (hk : st.mem r0 = k) (fuel : Nat) (hf : 2 ≤ fuel) :
    runProgC L fuel (.seq (.NZ_R r0)
        (.ifB (.seq (.DEC_R r0) (.seq (.INC_R r1) .nil)) .nil)) st =
      some { st with mem :=
        (if k = 0 then writeCell st.mem L.rc 0
          else writeCell (writeCell (writeCell st.mem L.rc 0) r1 (st.mem r1 + 1))
            r0 (k - 1)) } := by
  have h0rc : r0 ≠ L.rc := by
    have := hL.2.2.2.2.2.1 r0 hr0
    omega
  have h1rc : r1 ≠ L.rc := by
    have := hL.2.2.2.2.2.1 r1 hr1
    omega
  rw [runProgC_of_init hL hc,
    if_decinc_run L r0 r1 hne h0rc h1rc fuel hf st hm, hk]

theorem if_body_at_most_once_witness :
    (runProgC L0 5 (.seq (.NZ_R 1)
        (.ifB (.seq (.DEC_R 1) (.seq (.INC_R 2) .nil)) .nil)) (stR 1 3) =
      some { stR 1 3 with mem :=
        (if 3 = 0 then writeCell (stR 1 3).mem L0.rc 0
          else writeCell (writeCell (writeCell (stR 1 3).mem L0.rc 0) 2
            ((stR 1 3).mem 2 + 1)) 1 (3 - 1)) }) :=
  if_body_at_most_once L0 (by decide) 1 2 (by decide) (by decide) (by decide)
    (stR 1 3) (memWF_stR 1 3) (by decide) 3 (by decide) 5 (by decide)

/-- Comparison/zero-test opcodes are insensitive to any cell other than
their operands: running one from two states that agree everywhere except
RC produces identical states (the 0/1 result overwrites RC). -/
theorem exec_cmptest_congr (L : MemoryLayout) (i : Instr)
    (hi : i.isCmpTest = true) (hv : i.validOps L)
    (hregs : ∀ p ∈ L.registers, p < L.rc) (st st' : St)
    (hmemeq : ∀ c, c ≠ L.rc → st'.mem c = st.mem c)
    (hsp : st'.sp = st.sp) (hinp : st'.inp = st.inp) (hout : st'.out = st.out) :
    exec L i st' = exec L i st := by
  have hrd : ∀ r', r' ∈ L.registers → st'.mem r' = st.mem r' := by
    intro r' h
    have := hregs r' h
    exact hmemeq r' (by omega)
  have hbase : ∀ v, rcSet L st' v = rcSet L st v := by
    intro v
    refine St.ext ?_ hsp hinp hout
    funext c
    dsimp only [rcSet]
    by_cases hcr : c = L.rc
    · rw [hcr, writeCell_self, writeCell_self]
    · rw [writeCell_other _ _ _ _ hcr, writeCell_other _ _ _ _ hcr]
      exact hmemeq c hcr
  cases i <;> simp [Instr.isCmpTest] at hi <;> simp only [exec] <;>
    first
      | exact hbase _
      | (simp only [hrd _ hv]; exact hbase _)
      | (simp only [hrd _ hv.1, hrd _ hv.2]; exact hbase _)

/-- C9: For every comparison or zero-test opcode (EQ, NE, GT, GE, LT, LE,
ZR, NZ) with fixed operand values, the value left in RC and the entire
final state are identical in two runs that differ only in RC's initial
value: the opcode's result overwrites RC and does not depend on RC's
prior contents. -/
theorem cmptest_rc_independent (L : MemoryLayout) (hL : L.WF) (i : Instr)
    (hi : i.isCmpTest = true) (hv : i.validOps L) (st : St)
    (hc : ConstsInit L st.mem) (b0 b1 : Nat) :
    runOne L i (rcSet L st b0) = runOne L i (rcSet L st b1) := by
  have hrcconst : ∀ b, ConstsInit L (rcSet L st b).mem := by
    intro b p hp
    have := hL.2.2.2.2.1 p hp
    dsimp only [rcSet]
    rw [writeCell_other _ _ _ _ (by omega)]
    exact hc p hp
  rw [runOne_of_init hL (hrcconst b0), runOne_of_init hL (hrcconst b1)]
  refine exec_cmptest_congr L i hi hv hL.2.2.2.2.2.1 _ _ ?_ rfl rfl rfl
  intro c hcr
  dsimp only [rcSet]
  rw [writeCell_other _ _ _ _ hcr, writeCell_other _ _ _ _ hcr]

theorem cmptest_rc_independent_witness :
    runOne L0 (.GT_RR 1 2) (rcSet L0 (stR 1 5) 0) =
      runOne L0 (.GT_RR 1 2) (rcSet L0 (stR 1 5) 1) :=
  cmptest_rc_independent L0 (by decide) (.GT_RR 1 2) (by decide) (by decide)
    (stR 1 5) (by decide) 0 1

/-- C1: For every opcode and every initial memory with the constant cells
at their constant-initialized values, compiling and running the opcode
leaves every cell it does not semantically write (in particular every
read-only operand register, every scratch cell, and the constant cells)
bit-for-bit equal to its pre-opcode value; only the opcode's declared
destination cells (`Instr.writes`) may differ afterward. -/
theorem frame_preservation (L : MemoryLayout) (hL : L.WF) (i : Instr)
    (hv : i.validOps L) (st : St) (hm : MemWF st.mem)
    (hc : ConstsInit L st.mem) (j : Nat) (hj : j ∉ i.writes L st.sp) :
    (runOne L i st).mem j = st.mem j := by
  rw [runOne_of_init hL hc]
  have htmp0 : st.mem L.tmp = 0 := hc _ hL.1
  have htmplt : ∀ r' ∈ L.registers, L.tmp < r' := fun r' h =>
    hL.2.2.2.1 (L.tmp, 0) hL.1 r' h
  have hne1 : ∀ {a : Nat}, j ∉ [a] → j ≠ a := by
    intro a h
    simpa using h
  have hne2 : ∀ {a b : Nat}, j ∉ [a, b] → j ≠ a ∧ j ≠ b := by
    intro a b h
    simp only [List.mem_cons, List.not_mem_nil, or_false, not_or] at h
    exact h
  have hne3 : ∀ {a b c : Nat}, j ∉ [a, b, c] → j ≠ a ∧ j ≠ b ∧ j ≠ c := by
    intro a b c h
    simp only [List.mem_cons, List.not_mem_nil, or_false, not_or] at h
    exact h
  cases i
  case SET_RV r v =>
    simp only [exec]
    rw [clearLoop_spec,
      addN_spec v (writeCell st.mem r 0) r (by rw [writeCell_self]; omega),
      writeCell_absorb]
    exact writeCell_other _ _ _ _ (hne1 hj)
  case SET_RR r0 r1 =>
    simp only [exec]
    by_cases he : r0 = r1
    · rw [if_pos he]
    · rw [if_neg he]
      have ht0 : L.tmp < r0 := htmplt r0 hv.1
      have ht1 : L.tmp < r1 := htmplt r1 hv.2
      rw [clearLoop_spec,
        copyRestore_spec (writeCell st.mem r0 0) r1 r0 L.tmp 1
          (fun h => he h.symm) (by omega) (by omega)
          (memWF_writeCell hm _ _)
          (by rw [writeCell_other _ _ _ _ (show L.tmp ≠ r0 by omega)]
              exact htmp0),
        writeCell_absorb]
      exact writeCell_other _ _ _ _ (hne1 hj)
  case STZ_R r =>
    simp only [exec]
    rw [clearLoop_spec]
    exact writeCell_other _ _ _ _ (hne1 hj)
  case PUSH_V v =>
    simp only [exec]
    rw [writeCell_other _ _ _ _ (hne2 hj).2, writeCell_other _ _ _ _ (hne2 hj).1]
  case PUSH_R r =>
    simp only [exec]
    rw [writeCell_other _ _ _ _ (hne2 hj).2, writeCell_other _ _ _ _ (hne2 hj).1]
  case POP_R r =>
    simp only [exec]
    cases hsps : st.sp with
    | zero => rfl
    | succ k =>
      rw [hsps] at hj
      simp only [Instr.writes, Nat.add_sub_cancel] at hj
      dsimp only
      rw [writeCell_other _ _ _ _ (hne3 hj).2.1,
        writeCell_other _ _ _ _ (hne3 hj).2.2,
        writeCell_other _ _ _ _ (hne3 hj).1]
  case INC_RR r0 r1 =>
    simp only [exec]
    by_cases he : r0 = r1
    · rw [if_pos he]
      exact writeCell_other _ _ _ _ (hne1 hj)
    · rw [if_neg he]
      have ht0 : L.tmp < r0 := htmplt r0 hv.1
      have ht1 : L.tmp < r1 := htmplt r1 hv.2
      rw [copyRestore_spec st.mem r1 r0 L.tmp 1 (fun h => he h.symm)
        (by omega) (by omega) hm htmp0]
      exact writeCell_other _ _ _ _ (hne1 hj)
  case DEC_RR r0 r1 =>
    simp only [exec]
    by_cases he : r0 = r1
    · rw [if_pos he]
      exact writeCell_other _ _ _ _ (hne1 hj)
    · rw [if_neg he]
      have ht0 : L.tmp < r0 := htmplt r0 hv.1
      have ht1 : L.tmp < r1 := htmplt r1 hv.2
      rw [copyRestore_spec st.mem r1 r0 L.tmp 255 (fun h => he h.symm)
        (by omega) (by omega) hm htmp0]
      exact writeCell_other _ _ _ _ (hne1 hj)
  case INP_R r =>
    simp only [exec]
    cases hin : st.inp with
    | nil => rfl
    | cons c rest => exact writeCell_other _ _ _ _ (hne1 hj)
  all_goals simp only [exec, rcSet]
  all_goals first
    | rfl
    | exact writeCell_other _ _ _ _ (hne1 hj)

theorem frame_preservation_witness :
    (runOne L0 (.SET_RV 1 5) st0).mem 4 = st0.mem 4 :=
  frame_preservation L0 (by decide) (.SET_RV 1 5) (by decide) st0 memWF_st0
    constsInit_st0 4 (by decide)
